import Mathlib

/-!
Verification of the Nexus-AMS Discord queue worker and dispatcher.

The definitions below are shallow embeddings of the JavaScript source:
`QueueWorker` (polling loop, fetch backoff, status-retry ledger) and
`QueueDispatcher` (`dispatch`, `#chunkDiscordMessage`, `#withDiscordRetry`).
Machine-level details follow the source; JS `Map` is modelled as an
insertion-ordered association list, JS numbers as `Nat` (or `ℚ` where a
fractional rate-limit delay matters), and thrown values as explicit data.
-/

/-- A thrown error object as inspected by `QueueWorker.#isNetworkError`:
whether it carries an HTTP `response`, a truthy `code`, and a `request`
object.  A falsy thrown value is modelled as `none` at use sites. -/
structure JsError where
  hasResponse : Bool
  hasCode : Bool
  hasRequest : Bool
deriving DecidableEq, Repr

/-- `QueueWorker.#isNetworkError(error)`: `false` for a falsy error; `false`
when `error.response` is present; otherwise `Boolean(error.code) ||
Boolean(error.request)`. -/
def isNetworkError : Option JsError → Bool
  | none => false
  | some e => if e.hasResponse then false else e.hasCode || e.hasRequest

/-- One record of `QueueWorker.pendingStatusUpdates` (the retry ledger):
`{ id, status, attempt, nextAttemptAt }`. -/
structure RetryRecord where
  id : String
  status : String
  attempt : Nat
  nextAttemptAt : Nat
deriving DecidableEq, Repr

/-- `Map.prototype.get` keyed by `id` over the insertion-ordered list. -/
def ledgerGet (m : List RetryRecord) (id : String) : Option RetryRecord :=
  m.find? (fun r => r.id = id)

/-- `Map.prototype.set`: replace the record for the key in place when
present, otherwise append. -/
def ledgerSet (m : List RetryRecord) (r : RetryRecord) : List RetryRecord :=
  if m.any (fun x => x.id = r.id) then
    m.map (fun x => if x.id = r.id then r else x)
  else
    m ++ [r]

/-- `Map.prototype.delete` keyed by `id`. -/
def ledgerDelete (m : List RetryRecord) (id : String) : List RetryRecord :=
  m.filter (fun r => ¬ r.id = id)

/-- A JS `Map` never holds two entries for one key; on the list model this
is distinctness of the stored ids. -/
def keysDistinct (m : List RetryRecord) : Prop :=
  (m.map (fun r => r.id)).Nodup

instance keysDistinct.dec (m : List RetryRecord) : Decidable (keysDistinct m) := by
  unfold keysDistinct
  infer_instance

/-- The mutable fields of a `QueueWorker` instance (timer handle omitted:
scheduling is surfaced as an effect instead). -/
structure WorkerState where
  pollIntervalMs : Nat
  currentPollIntervalMs : Nat
  maxBackoffMs : Nat
  statusBackoffBaseMs : Nat
  polling : Bool
  backoffAttempts : Nat
  pendingStatusUpdates : List RetryRecord
deriving DecidableEq, Repr

/-- A queue item as far as the worker inspects it: its `id` field
(`none` models a missing/undefined id). -/
structure Item where
  id : Option String
deriving DecidableEq, Repr

/-- Result of one awaited API call: it returned, or it threw a value
(`none` models a falsy thrown value). -/
inductive CallOutcome where
  | ok
  | threw (e : Option JsError)
deriving DecidableEq, Repr

/-- Result of `apiService.fetchDiscordQueue`: a response (whose `data`
array is already normalised to a list, `[]` when not an array), or a
thrown value. -/
inductive FetchOutcome where
  | ok (items : List Item)
  | threw (e : Option JsError)
deriving DecidableEq, Repr

/-- The behaviour of the worker's collaborators during one poll tick:
the fetch result, the dispatcher's outcome per item, the status-report
call's outcome per `(id, status)`, and `Date.now()`. -/
structure Env where
  fetchResult : FetchOutcome
  dispatchSuccess : Item → Bool
  reportResult : String → String → CallOutcome
  now : Nat

/-- Externally visible actions of one poll tick, in program order. -/
inductive Effect where
  | reschedule
  | setPollingFlag
  | clearPollingFlag
  | fetchCall
  | dispatchCall (id : String)
  | statusCall (id : String) (status : String)
deriving DecidableEq, Repr

/-- `QueueWorker.#increaseBackoff`: increment `backoffAttempts` and set
`currentPollIntervalMs = min(pollIntervalMs * 2 ** backoffAttempts,
maxBackoffMs)`. -/
def increaseBackoff (st : WorkerState) : WorkerState :=
  let attempts := st.backoffAttempts + 1
  { st with
      backoffAttempts := attempts
      currentPollIntervalMs := min (st.pollIntervalMs * 2 ^ attempts) st.maxBackoffMs }

/-- `QueueWorker.#resetBackoff`. -/
def resetBackoff (st : WorkerState) : WorkerState :=
  { st with backoffAttempts := 0, currentPollIntervalMs := st.pollIntervalMs }

/-- `QueueWorker.#enqueueStatusRetry(id, status)`: prior attempt count (0
when absent) plus one, delay `min(statusBackoffBaseMs * 2 ** (attempt - 1),
maxBackoffMs)`, record stored with `Map.set` (so it replaces). -/
def enqueueStatusRetry (st : WorkerState) (now : Nat) (id status : String) : WorkerState :=
  let existingAttempt :=
    match ledgerGet st.pendingStatusUpdates id with
    | some r => r.attempt
    | none => 0
  let attempt := existingAttempt + 1
  let delay := min (st.statusBackoffBaseMs * 2 ^ (attempt - 1)) st.maxBackoffMs
  { st with
      pendingStatusUpdates :=
        ledgerSet st.pendingStatusUpdates ⟨id, status, attempt, now + delay⟩ }

/-- `QueueWorker.#reportStatus(id, status)`: one status call; on a thrown
network-class error the update is enqueued for retry, otherwise the error
is only logged. -/
def reportStatus (st : WorkerState) (env : Env) (id status : String) :
    WorkerState × List Effect :=
  match env.reportResult id status with
  | .ok => (st, [.statusCall id status])
  | .threw e =>
    if isNetworkError e then
      (enqueueStatusRetry st env.now id status, [.statusCall id status])
    else
      (st, [.statusCall id status])

/-- `QueueWorker.#processItem(item)`: skip items whose `id` is falsy
(missing, or the empty string); otherwise dispatch and report
`complete`/`failed` from the dispatch outcome. -/
def processItem (st : WorkerState) (env : Env) (item : Item) :
    WorkerState × List Effect :=
  match item.id with
  | none => (st, [])
  | some id =>
    if id = "" then (st, [])
    else
      let status := if env.dispatchSuccess item then "complete" else "failed"
      let r := reportStatus st env id status
      (r.1, Effect.dispatchCall id :: r.2)

/-- The worker's `for (const item of items) await #processItem(item)` loop. -/
def processItems (st : WorkerState) (env : Env) : List Item → WorkerState × List Effect
  | [] => (st, [])
  | item :: rest =>
    let r := processItem st env item
    let r2 := processItems r.1 env rest
    (r2.1, r.2 ++ r2.2)

/-- One iteration of the `for (const update of dueUpdates)` loop in
`#flushPendingStatusUpdates`: success deletes the record, a network-class
throw re-enqueues it, any other throw deletes it permanently. -/
def flushStep (env : Env) (st : WorkerState) (r : RetryRecord) : WorkerState :=
  match env.reportResult r.id r.status with
  | .ok => { st with pendingStatusUpdates := ledgerDelete st.pendingStatusUpdates r.id }
  | .threw e =>
    if isNetworkError e then enqueueStatusRetry st env.now r.id r.status
    else { st with pendingStatusUpdates := ledgerDelete st.pendingStatusUpdates r.id }

/-- The `for (const update of dueUpdates)` loop itself. -/
def flushLoop (env : Env) (st : WorkerState) : List RetryRecord → WorkerState × List Effect
  | [] => (st, [])
  | r :: rest =>
    let res := flushLoop env (flushStep env st r) rest
    (res.1, Effect.statusCall r.id r.status :: res.2)

/-- `QueueWorker.#flushPendingStatusUpdates()`: early return on an empty
ledger; otherwise snapshot the records with `nextAttemptAt <= now` and run
the loop over that snapshot. -/
def flushPendingStatusUpdates (st : WorkerState) (env : Env) : WorkerState × List Effect :=
  if st.pendingStatusUpdates = [] then (st, [])
  else
    flushLoop env st
      (st.pendingStatusUpdates.filter (fun r => r.nextAttemptAt ≤ env.now))

/-- `QueueWorker.#fetchQueue()`: returns `{ items, success }`; a thrown
network-class error increases the backoff and clears `success`; any other
throw leaves `success = true` with an empty batch. -/
def fetchQueue (st : WorkerState) (env : Env) :
    (WorkerState × List Item × Bool) × List Effect :=
  match env.fetchResult with
  | .ok items => ((st, items, true), [.fetchCall])
  | .threw e =>
    if isNetworkError e then ((increaseBackoff st, [], false), [.fetchCall])
    else ((st, [], true), [.fetchCall])

/-- `QueueWorker.#poll()`: skip and reschedule when a cycle is in flight;
otherwise set `polling`, flush the ledger, fetch, process each item
sequentially, reset backoff on fetch success, and in the `finally` block
clear `polling` and reschedule. -/
def pollTick (st : WorkerState) (env : Env) : WorkerState × List Effect :=
  if st.polling then (st, [.reschedule])
  else
    let r1 := flushPendingStatusUpdates { st with polling := true } env
    let r2 := fetchQueue r1.1 env
    let r3 := processItems r2.1.1 env r2.1.2.1
    let st4 := if r2.1.2.2 then resetBackoff r3.1 else r3.1
    ({ st4 with polling := false },
      Effect.setPollingFlag ::
        (r1.2 ++ r2.2 ++ r3.2 ++ [Effect.clearPollingFlag, Effect.reschedule]))

/-- `QueueDispatcher.dispatch`'s view of the queue item's `action` field:
absent (undefined/null), present but not a string, or a string. -/
inductive ActionVal where
  | missing
  | nonString
  | str (s : String)
deriving DecidableEq, Repr

/-- `{ success, reason? }` as returned by `dispatch` and the handlers. -/
structure DispatchOutcome where
  success : Bool
  reason : Option String
deriving DecidableEq, Repr

/-- What the attempted call `await handler(command)` does: resolve with an
outcome-shaped `{ success, reason? }` value, resolve with some other JS
value (for an inherited member: `Object(command)` under action
"constructor" returns the command itself, and `Object.prototype.toString`
returns a string), or throw (a handler fault; or, for most inherited
members, a `TypeError` — from the strict-mode `undefined` receiver, or
because the looked-up `__proto__` value is not callable). -/
inductive HandlerBehavior where
  | returns (o : DispatchOutcome)
  | returnsOther
  | throws
deriving DecidableEq, Repr

/-- Result of `dispatch`: an outcome-shaped value (from the guard clauses,
the catch block, or the invoked function), or whatever other value the
invoked function returned, passed through unchanged by
`return await handler(command)`. -/
inductive DispatchResult where
  | outcome (o : DispatchOutcome)
  | value
deriving DecidableEq, Repr

/-- The own keys of the `this.handlers` object literal built in the
`QueueDispatcher` constructor. -/
def registeredActions : List String :=
  ["WAR_ALERT", "ALLIANCE_DEPARTURE", "INACTIVITY_ALERT",
   "ALLIANCE_ROLE_REMOVAL", "BEIGE_ALERT", "WAR_ROOM_CREATE"]

/-- The property names the object literal inherits from
`Object.prototype` (Node's standard members, Annex B included).
`this.handlers[action]` finds these too, and every one of them is truthy,
so the `if (!handler)` guard does not stop them. -/
def objectPrototypeKeys : List String :=
  ["constructor", "hasOwnProperty", "isPrototypeOf", "propertyIsEnumerable",
   "toLocaleString", "toString", "valueOf", "__defineGetter__",
   "__defineSetter__", "__lookupGetter__", "__lookupSetter__", "__proto__"]

/-- `QueueDispatcher.dispatch(command)`, parametrised by the behaviour
`run` of the call attempted on the looked-up property.  Returns the
result together with whether the `handler(command)` call inside the
`try` was reached.  The source guard is
`if (!action || typeof action !== 'string')`, so the empty string — a
falsy value in JS — takes the `invalid_action` branch; and
`this.handlers[action]` is an ordinary property lookup on an object
literal, so it also finds the truthy inherited `Object.prototype`
members, which are then called like a registered handler. -/
def dispatch (run : String → HandlerBehavior) (action : ActionVal) :
    DispatchResult × Bool :=
  match action with
  | .missing => (.outcome ⟨false, some "invalid_action"⟩, false)
  | .nonString => (.outcome ⟨false, some "invalid_action"⟩, false)
  | .str s =>
    if s = "" then (.outcome ⟨false, some "invalid_action"⟩, false)
    else if registeredActions.contains s || objectPrototypeKeys.contains s then
      match run s with
      | .returns o => (.outcome o, true)
      | .returnsOther => (.value, true)
      | .throws => (.outcome ⟨false, some "handler_error"⟩, true)
    else (.outcome ⟨false, some "unsupported_action"⟩, false)

/-- `text.split('\n')` (JS semantics: keeps empty segments, `""` splits to
`[""]`), defined structurally over the characters. -/
def splitLinesAux : List Char → List Char → List String
  | [], acc => [String.mk acc.reverse]
  | c :: rest, acc =>
    if c = '\n' then String.mk acc.reverse :: splitLinesAux rest []
    else splitLinesAux rest (c :: acc)

/-- JS `text.split('\n')` on a Lean string. -/
def jsSplitNewline (s : String) : List String :=
  splitLinesAux s.toList []

/-- The hard-slice loop `for (let i = 0; i < line.length; i += maxLength)
chunks.push(line.slice(i, i + maxLength))` over the characters of the
line.  (The source never calls this with `maxLength = 0`; the guard only
makes the definition total.) -/
def sliceLine (max : Nat) (cs : List Char) : List (List Char) :=
  match max, cs with
  | _, [] => []
  | 0, _ :: _ => []
  | m + 1, c :: rest =>
    (c :: rest).take (m + 1) :: sliceLine (m + 1) ((c :: rest).drop (m + 1))
termination_by cs.length
decreasing_by
  simp only [List.drop_succ_cons, List.length_drop, List.length_cons]
  omega

/-- Length of `currentChunk` when a chunk is represented by its list of
lines: the lines' lengths plus one `'\n'` separator between neighbours. -/
def joinLen : List String → Nat
  | [] => 0
  | [l] => l.length
  | l :: ls => l.length + 1 + joinLen ls

/-- Rebuild the chunk string from its lines, i.e. the repeated
``currentChunk = `${currentChunk}\n${line}` `` of the source. -/
def joinNL : List String → String
  | [] => ""
  | [l] => l
  | l :: ls => l ++ "\n" ++ joinNL ls

/-- The `for (const line of lines)` loop of
`QueueDispatcher.#chunkDiscordMessage`, with each pending chunk
represented by its list of lines.  Falsy (empty) lines are skipped; a
line that fits is appended; otherwise the current chunk is closed and the
line either becomes the next chunk or, when it alone exceeds the limit,
is hard-sliced into single-piece chunks. -/
def chunkLoop (max : Nat) (chunks : List (List String)) (current : List String) :
    List String → List (List String)
  | [] => if current = [] then chunks else chunks ++ [current]
  | line :: rest =>
    if line = "" then chunkLoop max chunks current rest
    else if (if current = [] then line.length
        else joinLen current + 1 + line.length) ≤ max then
      chunkLoop max chunks (current ++ [line]) rest
    else if max < line.length then
      chunkLoop max
        ((if current = [] then chunks else chunks ++ [current]) ++
          (sliceLine max line.toList).map (fun cs => [String.mk cs])) [] rest
    else
      chunkLoop max (if current = [] then chunks else chunks ++ [current]) [line] rest

/-- The chunking loop started on the split lines with empty accumulators. -/
def chunkLines (lines : List String) (max : Nat) : List (List String) :=
  chunkLoop max [] [] lines

/-- `QueueDispatcher.#chunkDiscordMessage(text, maxLength = 1900)`:
short input is returned as a single chunk, long input is split on
newlines and greedily packed. -/
def chunkDiscordMessage (text : String) (maxLength : Nat := 1900) : List String :=
  if text.length ≤ maxLength then [text]
  else (chunkLines (jsSplitNewline text) maxLength).map joinNL

/-- What one source line contributes to the emitted chunks' lines: an
overlong line appears as its fixed-size pieces, any other line appears as
itself. -/
def expandLine (max : Nat) (l : String) : List String :=
  if max < l.length then (sliceLine max l.toList).map String.mk else [l]

/-- A Discord-side error as inspected by `#withDiscordRetry`:
`Number(error?.retry_after ?? error?.rawError?.retry_after ??
error?.data?.retry_after ?? NaN)` collapsed to an optional rational number
of seconds (`none` for `NaN`). -/
structure DiscordError where
  retryAfter : Option ℚ
deriving DecidableEq

/-- Result of `#withDiscordRetry`: a value, a propagated throw, or the
`return null` after the loop (unreachable for `maxAttempts ≥ 1`). -/
inductive RetryResult (α : Type) where
  | ok (v : α)
  | thrown (e : DiscordError)
  | exhausted
deriving DecidableEq

/-- `Math.max(Math.ceil(retryAfterSeconds * 1000), 1000)`. -/
def waitMsOf (d : ℚ) : Nat :=
  max (Int.toNat ⌈d * 1000⌉) 1000

/-- The `for (let attempt = 1; attempt <= maxAttempts; ...)` loop of
`QueueDispatcher.#withDiscordRetry`, with `op n` the behaviour of the
`n`-th invocation of `operation`.  Returns the result, the list of sleep
durations (ms), and the number of invocations made. -/
def retryGo {α : Type} (op : Nat → Except DiscordError α) (maxAttempts : Nat)
    (attempt : Nat) : RetryResult α × List Nat × Nat :=
  if maxAttempts < attempt then (.exhausted, [], 0)
  else
    match op attempt with
    | .ok v => (.ok v, [], 1)
    | .error e =>
      match e.retryAfter with
      | none => (.thrown e, [], 1)
      | some d =>
        if attempt < maxAttempts then
          let rest := retryGo op maxAttempts (attempt + 1)
          (rest.1, waitMsOf d :: rest.2.1, rest.2.2 + 1)
        else (.thrown e, [], 1)
termination_by maxAttempts + 1 - attempt

/-- `QueueDispatcher.#withDiscordRetry(operation, label, maxAttempts = 3)`. -/
def withDiscordRetry {α : Type} (op : Nat → Except DiscordError α)
    (maxAttempts : Nat := 3) : RetryResult α × List Nat × Nat :=
  retryGo op maxAttempts 1

/-! ### Ledger lemmas -/

theorem find?_id_cons (a : RetryRecord) (l : List RetryRecord) (id : String) :
    List.find? (fun x => x.id = id) (a :: l) =
      if a.id = id then some a else List.find? (fun x => x.id = id) l := by
  by_cases h : a.id = id
  · rw [if_pos h]
    exact List.find?_cons_of_pos _ (by simp [h])
  · rw [if_neg h]
    exact List.find?_cons_of_neg _ (by simp [h])

theorem filter_not_id_cons (a : RetryRecord) (l : List RetryRecord) (id : String) :
    List.filter (fun x => ¬ x.id = id) (a :: l) =
      if a.id = id then List.filter (fun x => ¬ x.id = id) l
      else a :: List.filter (fun x => ¬ x.id = id) l := by
  by_cases h : a.id = id
  · rw [if_pos h]
    exact List.filter_cons_of_neg (by simp [h])
  · rw [if_neg h]
    exact List.filter_cons_of_pos (by simp [h])

theorem ledgerGet_set_self (m : List RetryRecord) (r : RetryRecord) :
    ledgerGet (ledgerSet m r) r.id = some r := by
  unfold ledgerSet ledgerGet
  split
  · rename_i hany
    induction m with
    | nil => simp at hany
    | cons a l ih =>
      by_cases ha : a.id = r.id
      · rw [List.map_cons, if_pos ha, find?_id_cons, if_pos rfl]
      · rw [List.map_cons, if_neg ha, find?_id_cons, if_neg ha]
        exact ih (by simpa [ha] using hany)
  · rename_i hany
    have hnone : m.find? (fun x => x.id = r.id) = none := by
      rw [List.find?_eq_none]
      intro x hx
      simp only [List.any_eq_true, not_exists, not_and] at hany
      simpa using hany x hx
    rw [List.find?_append, hnone, find?_id_cons, if_pos rfl]
    rfl

theorem ledgerGet_set_ne (m : List RetryRecord) (r : RetryRecord) (id' : String)
    (h : id' ≠ r.id) :
    ledgerGet (ledgerSet m r) id' = ledgerGet m id' := by
  unfold ledgerSet ledgerGet
  split
  · rename_i hany
    clear hany
    induction m with
    | nil => rfl
    | cons a l ih =>
      by_cases ha : a.id = r.id
      · rw [List.map_cons, if_pos ha, find?_id_cons,
          if_neg (fun hr => h hr.symm), find?_id_cons,
          if_neg (fun hr : a.id = id' => h (hr.symm.trans ha))]
        exact ih
      · rw [List.map_cons, if_neg ha, find?_id_cons, find?_id_cons]
        by_cases hai : a.id = id'
        · rw [if_pos hai, if_pos hai]
        · rw [if_neg hai, if_neg hai]
          exact ih
  · rw [List.find?_append]
    cases hm : m.find? (fun x => x.id = id') with
    | some v => simp
    | none =>
      rw [find?_id_cons, if_neg (fun hr : r.id = id' => h hr.symm)]
      simp

theorem ledgerGet_delete_self (m : List RetryRecord) (id : String) :
    ledgerGet (ledgerDelete m id) id = none := by
  unfold ledgerDelete ledgerGet
  rw [List.find?_eq_none]
  intro x hx
  have := List.of_mem_filter hx
  simpa using this

theorem ledgerGet_delete_ne (m : List RetryRecord) (id id' : String) (h : id' ≠ id) :
    ledgerGet (ledgerDelete m id) id' = ledgerGet m id' := by
  unfold ledgerDelete ledgerGet
  induction m with
  | nil => rfl
  | cons a l ih =>
    rw [filter_not_id_cons]
    by_cases ha : a.id = id
    · rw [if_pos ha, ih, find?_id_cons,
        if_neg (fun hr : a.id = id' => h (hr.symm.trans ha))]
    · rw [if_neg ha, find?_id_cons, find?_id_cons]
      by_cases hai : a.id = id'
      · rw [if_pos hai, if_pos hai]
      · rw [if_neg hai, if_neg hai]
        exact ih

theorem keysDistinct_set (m : List RetryRecord) (r : RetryRecord)
    (h : keysDistinct m) : keysDistinct (ledgerSet m r) := by
  unfold keysDistinct ledgerSet
  split
  · have : (m.map (fun x => if x.id = r.id then r else x)).map (fun x => x.id) =
        m.map (fun x => x.id) := by
      rw [List.map_map]
      apply List.map_congr_left
      intro x _
      by_cases hx : x.id = r.id <;> simp [hx]
    rw [this]
    exact h
  · rename_i hany
    rw [List.map_append, List.nodup_append]
    refine ⟨h, List.nodup_singleton _, ?_⟩
    intro x hx
    simp only [List.mem_map] at hx
    obtain ⟨y, hy, rfl⟩ := hx
    simp only [List.map_cons, List.map_nil, List.mem_singleton, List.mem_cons,
      List.not_mem_nil, or_false]
    intro hxr
    simp only [List.any_eq_true, not_exists, not_and] at hany
    have hy2 := hany y hy
    simp only [decide_eq_true_eq] at hy2
    exact hy2 hxr

theorem keysDistinct_delete (m : List RetryRecord) (id : String)
    (h : keysDistinct m) : keysDistinct (ledgerDelete m id) := by
  unfold keysDistinct ledgerDelete
  exact h.sublist (List.Sublist.map _ (List.filter_sublist m))

theorem ledgerGet_mem (m : List RetryRecord) (r : RetryRecord)
    (h : keysDistinct m) (hr : r ∈ m) : ledgerGet m r.id = some r := by
  unfold ledgerGet
  induction m with
  | nil => simp at hr
  | cons a l ih =>
    rcases List.mem_cons.mp hr with rfl | hmem
    · rw [find?_id_cons, if_pos rfl]
    · have hne : a.id ≠ r.id := by
        intro heq
        have : r.id ∈ l.map (fun x => x.id) := List.mem_map_of_mem _ hmem
        unfold keysDistinct at h
        simp only [List.map_cons, List.nodup_cons] at h
        exact h.1 (heq ▸ this)
      rw [find?_id_cons, if_neg hne]
      exact ih (by unfold keysDistinct at h ⊢; simp only [List.map_cons,
        List.nodup_cons] at h; exact h.2) hmem

theorem ledgerFilter_of_get (m : List RetryRecord) (id : String) (r : RetryRecord)
    (h : keysDistinct m) (hget : ledgerGet m id = some r) :
    m.filter (fun x => x.id = id) = [r] := by
  unfold ledgerGet at hget
  induction m with
  | nil => simp at hget
  | cons a l ih =>
    have hd : keysDistinct l := by
      unfold keysDistinct at h ⊢
      simp only [List.map_cons, List.nodup_cons] at h
      exact h.2
    by_cases ha : a.id = id
    · rw [find?_id_cons, if_pos ha] at hget
      obtain rfl : a = r := by injection hget
      rw [List.filter_cons, if_pos (by simpa using ha)]
      have : l.filter (fun x => x.id = id) = [] := by
        rw [List.filter_eq_nil_iff]
        intro x hx hxid
        have hx2 : x.id = id := by simpa using hxid
        have hmem : a.id ∈ l.map (fun y => y.id) := by
          rw [ha, ← hx2]
          exact List.mem_map_of_mem _ hx
        unfold keysDistinct at h
        simp only [List.map_cons, List.nodup_cons] at h
        exact h.1 hmem
      rw [this]
    · rw [find?_id_cons, if_neg ha] at hget
      rw [List.filter_cons, if_neg (by simpa using ha)]
      exact ih hd hget

/-! ### C4: retry-ledger enqueue -/

/-- C4: enqueueing a status retry with a record already present for the id
replaces it (one record per id) with attempt `n + 1` and
`nextAttemptAt = now + min(statusBackoffBaseMs * 2 ^ n, maxBackoffMs)`;
with no record present it stores attempt 1 and
`nextAttemptAt = now + statusBackoffBaseMs`. -/
theorem enqueueStatusRetry_spec (st : WorkerState) (now : Nat) (id status : String)
    (h : keysDistinct st.pendingStatusUpdates) :
    keysDistinct (enqueueStatusRetry st now id status).pendingStatusUpdates ∧
    ((enqueueStatusRetry st now id status).pendingStatusUpdates.filter
        (fun r => r.id = id)).length = 1 ∧
    (∀ r, ledgerGet st.pendingStatusUpdates id = some r →
      ledgerGet (enqueueStatusRetry st now id status).pendingStatusUpdates id =
        some ⟨id, status, r.attempt + 1,
          now + min (st.statusBackoffBaseMs * 2 ^ r.attempt) st.maxBackoffMs⟩) ∧
    (ledgerGet st.pendingStatusUpdates id = none →
      st.statusBackoffBaseMs ≤ st.maxBackoffMs →
      ledgerGet (enqueueStatusRetry st now id status).pendingStatusUpdates id =
        some ⟨id, status, 1, now + st.statusBackoffBaseMs⟩) := by
  have hset : ∀ rec : RetryRecord, rec.id = id →
      ledgerGet (ledgerSet st.pendingStatusUpdates rec) id = some rec := by
    intro rec hrec
    have := ledgerGet_set_self st.pendingStatusUpdates rec
    rwa [hrec] at this
  refine ⟨?_, ?_, ?_, ?_⟩
  · unfold enqueueStatusRetry
    exact keysDistinct_set _ _ h
  · unfold enqueueStatusRetry
    rw [ledgerFilter_of_get _ id _ (keysDistinct_set _ _ h) (hset _ rfl)]
    rfl
  · intro r hr
    unfold enqueueStatusRetry
    rw [hr]
    simpa using hset ⟨id, status, r.attempt + 1,
      now + min (st.statusBackoffBaseMs * 2 ^ (r.attempt + 1 - 1)) st.maxBackoffMs⟩ rfl
  · intro hn hle
    unfold enqueueStatusRetry
    rw [hn]
    have := hset ⟨id, status, 1,
      now + min (st.statusBackoffBaseMs * 2 ^ (1 - 1)) st.maxBackoffMs⟩ rfl
    simpa [Nat.min_eq_left hle] using this

/-! ### State-preservation lemmas: these operations only touch the ledger -/

theorem enqueueStatusRetry_pending (st : WorkerState) (now : Nat) (id status : String) :
    ∃ p, enqueueStatusRetry st now id status = { st with pendingStatusUpdates := p } :=
  ⟨_, rfl⟩

theorem flushStep_pending (env : Env) (st : WorkerState) (r : RetryRecord) :
    ∃ p, flushStep env st r = { st with pendingStatusUpdates := p } := by
  unfold flushStep
  split
  · exact ⟨_, rfl⟩
  · split
    · exact enqueueStatusRetry_pending st env.now r.id r.status
    · exact ⟨_, rfl⟩

theorem flushLoop_pending (env : Env) :
    ∀ (todo : List RetryRecord) (st : WorkerState),
      ∃ p, (flushLoop env st todo).1 = { st with pendingStatusUpdates := p } := by
  intro todo
  induction todo with
  | nil => intro st; exact ⟨st.pendingStatusUpdates, rfl⟩
  | cons r rest ih =>
    intro st
    obtain ⟨p1, h1⟩ := flushStep_pending env st r
    obtain ⟨p2, h2⟩ := ih (flushStep env st r)
    refine ⟨p2, ?_⟩
    simp only [flushLoop]
    rw [h2, h1]

theorem flushPendingStatusUpdates_pending (st : WorkerState) (env : Env) :
    ∃ p, (flushPendingStatusUpdates st env).1 = { st with pendingStatusUpdates := p } := by
  unfold flushPendingStatusUpdates
  split
  · exact ⟨st.pendingStatusUpdates, rfl⟩
  · exact flushLoop_pending env _ st

theorem reportStatus_pending (st : WorkerState) (env : Env) (id status : String) :
    ∃ p, (reportStatus st env id status).1 = { st with pendingStatusUpdates := p } := by
  unfold reportStatus
  split
  · exact ⟨_, rfl⟩
  · split
    · exact enqueueStatusRetry_pending st env.now id status
    · exact ⟨_, rfl⟩

theorem processItem_pending (st : WorkerState) (env : Env) (item : Item) :
    ∃ p, (processItem st env item).1 = { st with pendingStatusUpdates := p } := by
  unfold processItem
  split
  · exact ⟨_, rfl⟩
  · split
    · exact ⟨_, rfl⟩
    · exact reportStatus_pending st env _ _

theorem processItems_pending (env : Env) :
    ∀ (items : List Item) (st : WorkerState),
      ∃ p, (processItems st env items).1 = { st with pendingStatusUpdates := p } := by
  intro items
  induction items with
  | nil => intro st; exact ⟨st.pendingStatusUpdates, rfl⟩
  | cons item rest ih =>
    intro st
    obtain ⟨p1, h1⟩ := processItem_pending st env item
    obtain ⟨p2, h2⟩ := ih (processItem st env item).1
    refine ⟨p2, ?_⟩
    simp only [processItems]
    rw [h2, h1]

/-! ### Flush-loop lemmas -/

theorem flushStep_keysDistinct (env : Env) (st : WorkerState) (r : RetryRecord)
    (h : keysDistinct st.pendingStatusUpdates) :
    keysDistinct (flushStep env st r).pendingStatusUpdates := by
  unfold flushStep
  split
  · exact keysDistinct_delete _ _ h
  · split
    · unfold enqueueStatusRetry
      exact keysDistinct_set _ _ h
    · exact keysDistinct_delete _ _ h

theorem flushStep_get_ne (env : Env) (st : WorkerState) (r : RetryRecord)
    (id' : String) (h : id' ≠ r.id) :
    ledgerGet (flushStep env st r).pendingStatusUpdates id' =
      ledgerGet st.pendingStatusUpdates id' := by
  unfold flushStep
  split
  · exact ledgerGet_delete_ne _ _ _ h
  · split
    · unfold enqueueStatusRetry
      exact ledgerGet_set_ne _ _ _ h
    · exact ledgerGet_delete_ne _ _ _ h

theorem flushLoop_effects (env : Env) :
    ∀ (todo : List RetryRecord) (st : WorkerState),
      (flushLoop env st todo).2 =
        todo.map (fun r => Effect.statusCall r.id r.status) := by
  intro todo
  induction todo with
  | nil => intro st; rfl
  | cons r rest ih =>
    intro st
    simp only [flushLoop, List.map_cons]
    rw [ih]

theorem flushLoop_get_notin (env : Env) :
    ∀ (todo : List RetryRecord) (st : WorkerState) (id' : String),
      id' ∉ todo.map (fun r => r.id) →
      ledgerGet (flushLoop env st todo).1.pendingStatusUpdates id' =
        ledgerGet st.pendingStatusUpdates id' := by
  intro todo
  induction todo with
  | nil => intro st id' _; rfl
  | cons r rest ih =>
    intro st id' hnot
    simp only [List.map_cons, List.mem_cons, not_or] at hnot
    simp only [flushLoop]
    rw [ih (flushStep env st r) id' (by simpa using hnot.2)]
    exact flushStep_get_ne env st r id' hnot.1

/-- The per-record fate of every due retry processed by the flush loop:
success removes it, a network-class throw re-enqueues it with the next
attempt count and capped delay, any other throw removes it permanently. -/
theorem flushLoop_fates (env : Env) (B M : Nat) :
    ∀ (todo : List RetryRecord) (st : WorkerState),
      st.statusBackoffBaseMs = B → st.maxBackoffMs = M →
      keysDistinct st.pendingStatusUpdates →
      (todo.map (fun r => r.id)).Nodup →
      (∀ r ∈ todo, ledgerGet st.pendingStatusUpdates r.id = some r) →
      keysDistinct (flushLoop env st todo).1.pendingStatusUpdates ∧
      ∀ r ∈ todo,
        (env.reportResult r.id r.status = .ok →
          ledgerGet (flushLoop env st todo).1.pendingStatusUpdates r.id = none) ∧
        (∀ e, env.reportResult r.id r.status = .threw e → isNetworkError e = true →
          ledgerGet (flushLoop env st todo).1.pendingStatusUpdates r.id =
            some ⟨r.id, r.status, r.attempt + 1, env.now + min (B * 2 ^ r.attempt) M⟩) ∧
        (∀ e, env.reportResult r.id r.status = .threw e → isNetworkError e = false →
          ledgerGet (flushLoop env st todo).1.pendingStatusUpdates r.id = none) := by
  intro todo
  induction todo with
  | nil =>
    intro st _ _ hK _ _
    exact ⟨hK, by intro r hr; simp at hr⟩
  | cons r rest ih =>
    intro st hB hM hK hNodup hmem
    obtain ⟨pstep, hpstep⟩ := flushStep_pending env st r
    simp only [List.map_cons, List.nodup_cons] at hNodup
    have hK1 : keysDistinct (flushStep env st r).pendingStatusUpdates :=
      flushStep_keysDistinct env st r hK
    have hB1 : (flushStep env st r).statusBackoffBaseMs = B := by rw [hpstep]; exact hB
    have hM1 : (flushStep env st r).maxBackoffMs = M := by rw [hpstep]; exact hM
    have hmem1 : ∀ x ∈ rest, ledgerGet (flushStep env st r).pendingStatusUpdates x.id = some x := by
      intro x hx
      have hne : x.id ≠ r.id := by
        intro heq
        exact hNodup.1 (heq ▸ List.mem_map_of_mem _ hx)
      rw [flushStep_get_ne env st r x.id hne]
      exact hmem x (List.mem_cons_of_mem _ hx)
    have IH := ih (flushStep env st r) hB1 hM1 hK1 hNodup.2 hmem1
    have hloop : (flushLoop env st (r :: rest)).1 = (flushLoop env (flushStep env st r) rest).1 := by
      simp only [flushLoop]
    refine ⟨by rw [hloop]; exact IH.1, ?_⟩
    intro x hx
    rcases List.mem_cons.mp hx with rfl | hxrest
    · -- the head record is settled by its own step and untouched afterwards
      have hcarry :
          ledgerGet (flushLoop env (flushStep env st x) rest).1.pendingStatusUpdates x.id =
            ledgerGet (flushStep env st x).pendingStatusUpdates x.id :=
        flushLoop_get_notin env rest (flushStep env st x) x.id (by simpa using hNodup.1)
      refine ⟨?_, ?_, ?_⟩
      · intro hok
        rw [hloop, hcarry]
        unfold flushStep
        rw [hok]
        exact ledgerGet_delete_self _ _
      · intro e hthrew hnet
        rw [hloop, hcarry]
        unfold flushStep
        rw [hthrew]
        dsimp only
        rw [if_pos hnet]
        unfold enqueueStatusRetry
        rw [hmem x (List.mem_cons_self _ _), hB, hM]
        simpa using ledgerGet_set_self st.pendingStatusUpdates
          ⟨x.id, x.status, x.attempt + 1, env.now + min (B * 2 ^ x.attempt) M⟩
      · intro e hthrew hnet
        rw [hloop, hcarry]
        unfold flushStep
        rw [hthrew]
        dsimp only
        rw [if_neg (by simp [hnet])]
        exact ledgerGet_delete_self _ _
    · have := IH.2 x hxrest
      rw [hloop]
      exact this

/-- C5: a flush retries exactly the records with `nextAttemptAt <= now`
(one status call each); for a retried record, success removes it, a
network-class failure re-enqueues it with the attempt incremented and the
capped delay, a non-network-class failure removes it permanently; records
not yet due are left untouched. -/
theorem flushPendingStatusUpdates_spec (st : WorkerState) (env : Env)
    (h : keysDistinct st.pendingStatusUpdates) :
    (flushPendingStatusUpdates st env).2 =
      (st.pendingStatusUpdates.filter (fun r => r.nextAttemptAt ≤ env.now)).map
        (fun r => Effect.statusCall r.id r.status) ∧
    keysDistinct (flushPendingStatusUpdates st env).1.pendingStatusUpdates ∧
    (∀ r ∈ st.pendingStatusUpdates.filter (fun r => r.nextAttemptAt ≤ env.now),
      (env.reportResult r.id r.status = .ok →
        ledgerGet (flushPendingStatusUpdates st env).1.pendingStatusUpdates r.id = none) ∧
      (∀ e, env.reportResult r.id r.status = .threw e → isNetworkError e = true →
        ledgerGet (flushPendingStatusUpdates st env).1.pendingStatusUpdates r.id =
          some ⟨r.id, r.status, r.attempt + 1,
            env.now + min (st.statusBackoffBaseMs * 2 ^ r.attempt) st.maxBackoffMs⟩) ∧
      (∀ e, env.reportResult r.id r.status = .threw e → isNetworkError e = false →
        ledgerGet (flushPendingStatusUpdates st env).1.pendingStatusUpdates r.id = none)) ∧
    (∀ r ∈ st.pendingStatusUpdates, ¬ r.nextAttemptAt ≤ env.now →
      ledgerGet (flushPendingStatusUpdates st env).1.pendingStatusUpdates r.id = some r) := by
  unfold flushPendingStatusUpdates
  split
  · rename_i hemp
    rw [hemp]
    refine ⟨by simp, by rw [hemp] at h; exact h, by simp, ?_⟩
    intro r hr
    simp at hr
  · have hdN : ((st.pendingStatusUpdates.filter
        (fun r => r.nextAttemptAt ≤ env.now)).map (fun r => r.id)).Nodup := by
      unfold keysDistinct at h
      exact h.sublist (List.Sublist.map _ (List.filter_sublist _))
    have hdmem : ∀ r ∈ st.pendingStatusUpdates.filter (fun r => r.nextAttemptAt ≤ env.now),
        ledgerGet st.pendingStatusUpdates r.id = some r := fun r hr =>
      ledgerGet_mem _ _ h (List.mem_of_mem_filter hr)
    have main := flushLoop_fates env st.statusBackoffBaseMs st.maxBackoffMs
      (st.pendingStatusUpdates.filter (fun r => r.nextAttemptAt ≤ env.now)) st
      rfl rfl h hdN hdmem
    refine ⟨flushLoop_effects env _ st, main.1, main.2, ?_⟩
    intro r hr hnd
    have hnotin : r.id ∉ (st.pendingStatusUpdates.filter
        (fun x => x.nextAttemptAt ≤ env.now)).map (fun x => x.id) := by
      intro hin
      obtain ⟨x, hxdue, hxid⟩ := List.mem_map.mp hin
      have hxmem := List.mem_of_mem_filter hxdue
      have hxeq : x = r := by
        unfold keysDistinct at h
        exact List.inj_on_of_nodup_map h hxmem hr hxid
      subst hxeq
      exact hnd (by simpa using List.of_mem_filter hxdue)
    rw [flushLoop_get_notin env _ st r.id hnotin]
    exact ledgerGet_mem _ _ h hr

/-- Witness for C5: one due record whose retry fails with a network-class
error is re-enqueued with attempt 2 and the capped backoff delay. -/
theorem flushPendingStatusUpdates_spec_witness :
    keysDistinct [RetryRecord.mk "42" "complete" 1 5] ∧
    ledgerGet (flushPendingStatusUpdates
        ⟨30000, 30000, 300000, 10000, false, 0, [⟨"42", "complete", 1, 5⟩]⟩
        ⟨.ok [], fun _ => true, fun _ _ => .threw (some ⟨false, true, false⟩),
          10⟩).1.pendingStatusUpdates "42" =
      some ⟨"42", "complete", 2, 10 + min (10000 * 2 ^ 1) 300000⟩ := by
  refine ⟨by decide, ?_⟩
  have h := (flushPendingStatusUpdates_spec
      ⟨30000, 30000, 300000, 10000, false, 0, [⟨"42", "complete", 1, 5⟩]⟩
      ⟨.ok [], fun _ => true, fun _ _ => .threw (some ⟨false, true, false⟩), 10⟩
      (by decide)).2.2.1
  exact (h ⟨"42", "complete", 1, 5⟩ (by decide)).2.1
    (some ⟨false, true, false⟩) rfl (by decide)

/-- Witness for C4 at a concrete ledger holding `{id := "42", attempt := 1}`. -/
theorem enqueueStatusRetry_spec_witness :
    keysDistinct [RetryRecord.mk "42" "complete" 1 5] ∧
    ledgerGet (enqueueStatusRetry
        ⟨30000, 30000, 300000, 10000, false, 0, [⟨"42", "complete", 1, 5⟩]⟩
        100 "42" "complete").pendingStatusUpdates "42" =
      some ⟨"42", "complete", 2, 100 + min (10000 * 2 ^ 1) 300000⟩ := by
  refine ⟨by decide, ?_⟩
  exact (enqueueStatusRetry_spec
      ⟨30000, 30000, 300000, 10000, false, 0, [⟨"42", "complete", 1, 5⟩]⟩
      100 "42" "complete" (by decide)).2.2.1 ⟨"42", "complete", 1, 5⟩ (by decide)

/-! ### C1: dispatch routing and fault barrier -/

/-- C1 counterexample: the empty string is a string with no registered
handler, yet `dispatch` returns `invalid_action` (the source guard
`!action` treats the falsy empty string as a missing action), not
`unsupported_action`; and the action "constructor" is likewise a string
with no registered handler, yet the object-literal lookup finds the
inherited truthy `Object` function, which is invoked (here returning the
command itself) instead of producing `unsupported_action`. -/
theorem dispatch_empty_action_cex :
    registeredActions.contains "" = false ∧
    (dispatch (fun _ => .throws) (.str "")).1 =
      .outcome ⟨false, some "invalid_action"⟩ ∧
    (dispatch (fun _ => .throws) (.str "")).1 ≠
      .outcome ⟨false, some "unsupported_action"⟩ ∧
    registeredActions.contains "constructor" = false ∧
    dispatch (fun _ => .returnsOther) (.str "constructor") = (.value, true) ∧
    (dispatch (fun _ => .returnsOther) (.str "constructor")).1 ≠
      .outcome ⟨false, some "unsupported_action"⟩ := by
  decide

/-- C1 (amended): a missing, non-string, or empty-string action yields
`invalid_action` with no call attempted; a non-empty string that is
neither a registered action nor an inherited `Object.prototype` property
name yields `unsupported_action` with no call attempted; for a registered
action — or an inherited `Object.prototype` name, whose truthy member
passes the `!handler` guard — the looked-up value is called inside the
fault barrier: a returned outcome or other value is passed through and
any throw is converted to `handler_error` — so `dispatch` never throws. -/
theorem dispatch_spec (run : String → HandlerBehavior) :
    (∀ a, a = ActionVal.missing ∨ a = ActionVal.nonString →
      dispatch run a = (.outcome ⟨false, some "invalid_action"⟩, false)) ∧
    dispatch run (.str "") = (.outcome ⟨false, some "invalid_action"⟩, false) ∧
    (∀ s, s ≠ "" → registeredActions.contains s = false →
      objectPrototypeKeys.contains s = false →
      dispatch run (.str s) = (.outcome ⟨false, some "unsupported_action"⟩, false)) ∧
    (∀ s o, (registeredActions.contains s || objectPrototypeKeys.contains s) = true →
      run s = .returns o → dispatch run (.str s) = (.outcome o, true)) ∧
    (∀ s, (registeredActions.contains s || objectPrototypeKeys.contains s) = true →
      run s = .returnsOther → dispatch run (.str s) = (.value, true)) ∧
    (∀ s, (registeredActions.contains s || objectPrototypeKeys.contains s) = true →
      run s = .throws →
      dispatch run (.str s) = (.outcome ⟨false, some "handler_error"⟩, true)) := by
  have hne : ∀ s : String,
      (registeredActions.contains s || objectPrototypeKeys.contains s) = true →
      ¬ s = "" := by
    intro s hs hemp
    rw [hemp] at hs
    exact absurd hs (by decide)
  refine ⟨?_, rfl, ?_, ?_, ?_, ?_⟩
  · rintro a (rfl | rfl) <;> rfl
  · intro s hs hns hnp
    have hns2 : s ∉ registeredActions := by simpa using hns
    have hnp2 : s ∉ objectPrototypeKeys := by simpa using hnp
    simp [dispatch, hs, hns2, hnp2]
  · intro s o hm hr
    have hm2 : s ∈ registeredActions ∨ s ∈ objectPrototypeKeys := by simpa using hm
    simp [dispatch, hne s hm, hm2, hr]
  · intro s hm hr
    have hm2 : s ∈ registeredActions ∨ s ∈ objectPrototypeKeys := by simpa using hm
    simp [dispatch, hne s hm, hm2, hr]
  · intro s hm hr
    have hm2 : s ∈ registeredActions ∨ s ∈ objectPrototypeKeys := by simpa using hm
    simp [dispatch, hne s hm, hm2, hr]

/-- Witness for C1: a throwing registered handler is converted to
`handler_error`; an unknown non-empty, non-prototype action is
`unsupported_action`; and the inherited "constructor" member is invoked
and its value passed through. -/
theorem dispatch_spec_witness :
    dispatch (fun _ => .throws) (.str "WAR_ALERT") =
      (.outcome ⟨false, some "handler_error"⟩, true) ∧
    dispatch (fun _ => .throws) (.str "NOT_AN_ACTION") =
      (.outcome ⟨false, some "unsupported_action"⟩, false) ∧
    dispatch (fun _ => .returnsOther) (.str "constructor") = (.value, true) :=
  ⟨(dispatch_spec (fun _ => .throws)).2.2.2.2.2 "WAR_ALERT" (by decide) rfl,
   (dispatch_spec (fun _ => .throws)).2.2.1 "NOT_AN_ACTION" (by decide)
     (by decide) (by decide),
   (dispatch_spec (fun _ => .returnsOther)).2.2.2.2.1 "constructor"
     (by decide) rfl⟩

/-! ### C9: network-class error classification -/

/-- C9 counterexample: a thrown error carrying no HTTP response (and no
`code` or `request` either, e.g. a plain programming error) is *not*
classified network-class, refuting "errors with no response are
network-class". -/
theorem isNetworkError_cex :
    (JsError.mk false false false).hasResponse = false ∧
    isNetworkError (some ⟨false, false, false⟩) = false := by
  decide

/-- C9 (amended): an error is classified network-class iff it is a truthy
error that carries no HTTP response and carries a truthy `code` or a
`request` object. -/
theorem isNetworkError_spec (e : Option JsError) :
    isNetworkError e = true ↔
      ∃ err, e = some err ∧ err.hasResponse = false ∧
        (err.hasCode || err.hasRequest) = true := by
  cases e with
  | none => simp [isNetworkError]
  | some err =>
    obtain ⟨a, b, c⟩ := err
    cases a <;> cases b <;> cases c <;> simp [isNetworkError]

/-! ### C3 / C10: fetch backoff -/

theorem processItems_pollIntervalMs (env : Env) (items : List Item) (st : WorkerState) :
    (processItems st env items).1.pollIntervalMs = st.pollIntervalMs := by
  obtain ⟨p, hp⟩ := processItems_pending env items st
  rw [hp]

theorem flush_pollIntervalMs (st : WorkerState) (env : Env) :
    (flushPendingStatusUpdates st env).1.pollIntervalMs = st.pollIntervalMs := by
  obtain ⟨p, hp⟩ := flushPendingStatusUpdates_pending st env
  rw [hp]

theorem increaseBackoff_iter (st : WorkerState) :
    ∀ k, (increaseBackoff^[k] st).pollIntervalMs = st.pollIntervalMs ∧
      (increaseBackoff^[k] st).maxBackoffMs = st.maxBackoffMs ∧
      (increaseBackoff^[k] st).backoffAttempts = st.backoffAttempts + k ∧
      (0 < k → (increaseBackoff^[k] st).currentPollIntervalMs =
        min (st.pollIntervalMs * 2 ^ (st.backoffAttempts + k)) st.maxBackoffMs) := by
  intro k
  induction k with
  | zero => simp
  | succ n ih =>
    rw [Function.iterate_succ_apply']
    obtain ⟨h1, h2, h3, h4⟩ := ih
    refine ⟨by simp [increaseBackoff, h1], by simp [increaseBackoff, h2],
      by simp [increaseBackoff]; omega, ?_⟩
    intro _
    simp only [increaseBackoff]
    rw [h1, h2, h3]
    have harith : st.backoffAttempts + n + 1 = st.backoffAttempts + (n + 1) := by omega
    rw [harith]

/-- C3: after `k` consecutive network-class fetch failures from
`backoffAttempts = 0`, the attempts counter is `k` and the interval is
`min(pollIntervalMs * 2 ^ k, maxBackoffMs)`; the first failure doubles the
base interval (whenever the doubled base is within the cap); a reset — and
in particular any poll tick whose fetch succeeds — restores attempts 0 and
the base interval. -/
theorem fetch_backoff_spec (st : WorkerState) (env : Env) (items : List Item) (k : Nat)
    (h0 : st.backoffAttempts = 0) (hk : 1 ≤ k) :
    ((increaseBackoff^[k] st).backoffAttempts = k ∧
     (increaseBackoff^[k] st).currentPollIntervalMs =
       min (st.pollIntervalMs * 2 ^ k) st.maxBackoffMs) ∧
    (2 * st.pollIntervalMs ≤ st.maxBackoffMs →
      (increaseBackoff^[1] st).backoffAttempts = 1 ∧
      (increaseBackoff^[1] st).currentPollIntervalMs = st.pollIntervalMs * 2) ∧
    ((resetBackoff st).backoffAttempts = 0 ∧
     (resetBackoff st).currentPollIntervalMs = st.pollIntervalMs) ∧
    (st.polling = false → env.fetchResult = .ok items →
      (pollTick st env).1.backoffAttempts = 0 ∧
      (pollTick st env).1.currentPollIntervalMs = st.pollIntervalMs) := by
  obtain ⟨h1, h2, h3, h4⟩ := increaseBackoff_iter st k
  refine ⟨⟨by rw [h3, h0, Nat.zero_add], by rw [h4 hk, h0, Nat.zero_add]⟩, ?_, ?_, ?_⟩
  · intro hcap
    obtain ⟨g1, g2, g3, g4⟩ := increaseBackoff_iter st 1
    refine ⟨by rw [g3, h0, Nat.zero_add], ?_⟩
    rw [g4 (by omega), h0, Nat.zero_add, pow_one]
    omega
  · exact ⟨rfl, rfl⟩
  · intro hp hf
    have hcond : ¬ (st.polling = true) := by simp [hp]
    constructor
    · simp [pollTick, hcond, fetchQueue, hf, resetBackoff]
    · simp [pollTick, hcond, fetchQueue, hf, resetBackoff,
        processItems_pollIntervalMs, flush_pollIntervalMs]

/-- Witness for C3: one failure from the default configuration doubles the
interval and sets the counter to 1. -/
theorem fetch_backoff_spec_witness :
    (increaseBackoff^[1] ⟨30000, 30000, 300000, 10000, false, 0, []⟩).backoffAttempts = 1 ∧
    (increaseBackoff^[1]
        ⟨30000, 30000, 300000, 10000, false, 0, []⟩).currentPollIntervalMs =
      min (30000 * 2 ^ 1) 300000 :=
  (fetch_backoff_spec ⟨30000, 30000, 300000, 10000, false, 0, []⟩
    ⟨.ok [], fun _ => true, fun _ _ => .ok, 0⟩ [] 1 rfl (by decide)).1

/-- C10: a fetch that throws a non-network-class error (e.g. an HTTP error
response) is treated as `success = true` with an empty batch, so the poll
cycle resets the backoff exactly as a successful fetch does. -/
theorem fetch_app_error_resets_backoff (st : WorkerState) (env : Env)
    (e : Option JsError) (hp : st.polling = false)
    (hf : env.fetchResult = .threw e) (hn : isNetworkError e = false) :
    (∀ st2, fetchQueue st2 env = ((st2, [], true), [Effect.fetchCall])) ∧
    (pollTick st env).1.backoffAttempts = 0 ∧
    (pollTick st env).1.currentPollIntervalMs = st.pollIntervalMs := by
  have hcond : ¬ (st.polling = true) := by simp [hp]
  have hfq : ∀ st2, fetchQueue st2 env = ((st2, [], true), [Effect.fetchCall]) := by
    intro st2
    simp [fetchQueue, hf, hn]
  refine ⟨hfq, ?_, ?_⟩
  · simp [pollTick, hcond, hfq, processItems, resetBackoff]
  · simp [pollTick, hcond, hfq, processItems, resetBackoff, flush_pollIntervalMs]

/-- Witness for C10: an HTTP-error fetch result at a concrete state. -/
theorem fetch_app_error_resets_backoff_witness :
    (pollTick ⟨30000, 60000, 300000, 10000, false, 1, []⟩
        ⟨.threw (some ⟨true, false, false⟩), fun _ => true, fun _ _ => .ok,
          0⟩).1.backoffAttempts = 0 ∧
    (pollTick ⟨30000, 60000, 300000, 10000, false, 1, []⟩
        ⟨.threw (some ⟨true, false, false⟩), fun _ => true, fun _ _ => .ok,
          0⟩).1.currentPollIntervalMs = 30000 :=
  (fetch_app_error_resets_backoff ⟨30000, 60000, 300000, 10000, false, 1, []⟩
    ⟨.threw (some ⟨true, false, false⟩), fun _ => true, fun _ _ => .ok, 0⟩
    (some ⟨true, false, false⟩) rfl rfl (by decide)).2

/-! ### C2: single-flight polling -/

/-- C2: a tick that fires while `polling` is set performs no flush, fetch
or dispatch work and leaves the state untouched — its only effect is to
reschedule; a normal cycle sets the flag first, clears it and reschedules
last, and ends with the flag cleared. -/
theorem pollTick_single_flight (st : WorkerState) (env : Env) :
    (st.polling = true → pollTick st env = (st, [Effect.reschedule])) ∧
    (st.polling = false →
      (pollTick st env).1.polling = false ∧
      ∃ mid, (pollTick st env).2 =
        Effect.setPollingFlag :: (mid ++ [Effect.clearPollingFlag, Effect.reschedule])) := by
  constructor
  · intro h
    simp [pollTick, h]
  · intro h
    have hcond : ¬ (st.polling = true) := by simp [h]
    refine ⟨?_, ?_⟩
    · simp [pollTick, hcond]
    · unfold pollTick
      rw [if_neg hcond]
      exact ⟨_, rfl⟩

/-- Witness for C2: a tick with the flag set only reschedules. -/
theorem pollTick_single_flight_witness :
    pollTick ⟨30000, 30000, 300000, 10000, true, 0, []⟩
        ⟨.ok [], fun _ => true, fun _ _ => .ok, 0⟩ =
      (⟨30000, 30000, 300000, 10000, true, 0, []⟩, [Effect.reschedule]) :=
  (pollTick_single_flight ⟨30000, 30000, 300000, 10000, true, 0, []⟩
    ⟨.ok [], fun _ => true, fun _ _ => .ok, 0⟩).1 rfl

/-! ### C8: items without an id -/

/-- C8: an item with no `id` invokes the dispatcher zero times, performs
no status call and touches no state (in particular no ledger entry), and
the rest of the batch is processed exactly as if the item were absent. -/
theorem processItem_no_id_spec (st : WorkerState) (env : Env) (pre post : List Item)
    (item : Item) (h : item.id = none) :
    processItem st env item = (st, []) ∧
    processItems st env (pre ++ item :: post) = processItems st env (pre ++ post) := by
  have hskip : ∀ s : WorkerState, processItem s env item = (s, []) := by
    intro s
    unfold processItem
    rw [h]
  refine ⟨hskip st, ?_⟩
  induction pre generalizing st with
  | nil =>
    simp only [List.nil_append, processItems]
    rw [hskip st]
    simp
  | cons a l ih =>
    simp only [List.cons_append, processItems, List.append_eq]
    rw [ih]

/-- Witness for C8: a no-id item between two items with ids. -/
theorem processItem_no_id_spec_witness :
    processItem ⟨30000, 30000, 300000, 10000, false, 0, []⟩
        ⟨.ok [], fun _ => true, fun _ _ => .ok, 0⟩ ⟨none⟩ =
      (⟨30000, 30000, 300000, 10000, false, 0, []⟩, []) ∧
    processItems ⟨30000, 30000, 300000, 10000, false, 0, []⟩
        ⟨.ok [], fun _ => true, fun _ _ => .ok, 0⟩
        ([⟨some "1"⟩] ++ ⟨none⟩ :: [⟨some "2"⟩]) =
      processItems ⟨30000, 30000, 300000, 10000, false, 0, []⟩
        ⟨.ok [], fun _ => true, fun _ _ => .ok, 0⟩ ([⟨some "1"⟩] ++ [⟨some "2"⟩]) :=
  processItem_no_id_spec ⟨30000, 30000, 300000, 10000, false, 0, []⟩
    ⟨.ok [], fun _ => true, fun _ _ => .ok, 0⟩ [⟨some "1"⟩] [⟨some "2"⟩] ⟨none⟩ rfl

/-! ### C7: rate-limit-aware delivery retrier -/

theorem retryGo_ok {α : Type} (op : Nat → Except DiscordError α) (m a : Nat) (v : α)
    (h : op a = .ok v) (ha : a ≤ m) : retryGo op m a = (.ok v, [], 1) := by
  rw [retryGo, if_neg (by omega)]
  simp only [h]

theorem retryGo_thrown_none {α : Type} (op : Nat → Except DiscordError α) (m a : Nat)
    (e : DiscordError) (h : op a = .error e) (he : e.retryAfter = none) (ha : a ≤ m) :
    retryGo op m a = (.thrown e, [], 1) := by
  rw [retryGo, if_neg (by omega)]
  simp only [h, he]

theorem retryGo_last {α : Type} (op : Nat → Except DiscordError α) (m : Nat)
    (e : DiscordError) (d : ℚ) (_hm : 0 < m) (h : op m = .error e)
    (he : e.retryAfter = some d) : retryGo op m m = (.thrown e, [], 1) := by
  rw [retryGo, if_neg (by omega)]
  simp only [h, he]
  rw [if_neg (by omega)]

theorem retryGo_retry {α : Type} (op : Nat → Except DiscordError α) (m a : Nat)
    (e : DiscordError) (d : ℚ) (h : op a = .error e) (he : e.retryAfter = some d)
    (ha : a < m) :
    retryGo op m a = ((retryGo op m (a + 1)).1,
      waitMsOf d :: (retryGo op m (a + 1)).2.1, (retryGo op m (a + 1)).2.2 + 1) := by
  conv_lhs => rw [retryGo]
  rw [if_neg (by omega)]
  simp only [h, he]
  rw [if_pos ha]

/-- C7: with 3 attempts, a success returns immediately; a failure with no
rate-limit delay propagates at once; a rate-limit failure with attempts
remaining sleeps `max(ceil(d * 1000), 1000)` ms and re-invokes the
operation; a rate-limit failure on the final attempt propagates; and a
2-second rate-limit failure followed by a success yields one ≈2000 ms
sleep and exactly two invocations. -/
theorem withDiscordRetry_spec (α : Type) (op : Nat → Except DiscordError α) :
    (∀ v, op 1 = .ok v → withDiscordRetry op 3 = (.ok v, [], 1)) ∧
    (∀ e, op 1 = .error e → e.retryAfter = none →
      withDiscordRetry op 3 = (.thrown e, [], 1)) ∧
    (∀ e d v, op 1 = .error e → e.retryAfter = some d → op 2 = .ok v →
      withDiscordRetry op 3 = (.ok v, [waitMsOf d], 2)) ∧
    (∀ e d e2, op 1 = .error e → e.retryAfter = some d → op 2 = .error e2 →
      e2.retryAfter = none → withDiscordRetry op 3 = (.thrown e2, [waitMsOf d], 2)) ∧
    (∀ e d e2 d2 v, op 1 = .error e → e.retryAfter = some d → op 2 = .error e2 →
      e2.retryAfter = some d2 → op 3 = .ok v →
      withDiscordRetry op 3 = (.ok v, [waitMsOf d, waitMsOf d2], 3)) ∧
    (∀ e d e2 d2 e3, op 1 = .error e → e.retryAfter = some d → op 2 = .error e2 →
      e2.retryAfter = some d2 → op 3 = .error e3 →
      withDiscordRetry op 3 = (.thrown e3, [waitMsOf d, waitMsOf d2], 3)) ∧
    waitMsOf 2 = 2000 := by
  have hw : withDiscordRetry op 3 = retryGo op 3 1 := rfl
  refine ⟨?_, ?_, ?_, ?_, ?_, ?_, ?_⟩
  · intro v h
    rw [hw, retryGo_ok op 3 1 v h (by omega)]
  · intro e h he
    rw [hw, retryGo_thrown_none op 3 1 e h he (by omega)]
  · intro e d v h hd h2
    rw [hw, retryGo_retry op 3 1 e d h hd (by omega),
      retryGo_ok op 3 2 v h2 (by omega)]
  · intro e d e2 h hd h2 hd2
    rw [hw, retryGo_retry op 3 1 e d h hd (by omega),
      retryGo_thrown_none op 3 2 e2 h2 hd2 (by omega)]
  · intro e d e2 d2 v h hd h2 hd2 h3
    rw [hw, retryGo_retry op 3 1 e d h hd (by omega),
      retryGo_retry op 3 2 e2 d2 h2 hd2 (by omega),
      retryGo_ok op 3 3 v h3 (by omega)]
  · intro e d e2 d2 e3 h hd h2 hd2 h3
    cases he3 : e3.retryAfter with
    | none =>
      rw [hw, retryGo_retry op 3 1 e d h hd (by omega),
        retryGo_retry op 3 2 e2 d2 h2 hd2 (by omega),
        retryGo_thrown_none op 3 3 e3 h3 he3 (by omega)]
    | some d3 =>
      rw [hw, retryGo_retry op 3 1 e d h hd (by omega),
        retryGo_retry op 3 2 e2 d2 h2 hd2 (by omega),
        retryGo_last op 3 e3 d3 (by omega) h3 he3]
  · unfold waitMsOf
    norm_num
    rfl

/-- Witness for C7: a 2-second rate-limit failure then a success gives one
2000 ms sleep, the successful value, and no third invocation. -/
theorem withDiscordRetry_spec_witness :
    withDiscordRetry (fun n => if n = 1 then Except.error ⟨some 2⟩ else Except.ok 7) 3 =
      (.ok 7, [2000], 2) := by
  have h := withDiscordRetry_spec Nat
    (fun n => if n = 1 then Except.error ⟨some 2⟩ else Except.ok 7)
  rw [h.2.2.1 ⟨some 2⟩ 2 7 rfl rfl rfl, h.2.2.2.2.2.2]

/-! ### C6: message chunking -/

theorem join_map_singleton {β γ : Type} (f : β → γ) (l : List β) :
    (l.map (fun x => [f x])).flatten = l.map f := by
  induction l with
  | nil => rfl
  | cons a t ih => simp [ih]

theorem sliceLine_join_aux (m : Nat) :
    ∀ (n : Nat) (cs : List Char), cs.length ≤ n →
      (sliceLine (m + 1) cs).flatten = cs := by
  intro n
  induction n with
  | zero =>
    intro cs h
    have hnil : cs = [] := by
      cases cs with
      | nil => rfl
      | cons a t => simp at h
    rw [hnil]
    simp [sliceLine]
  | succ n ih =>
    intro cs h
    cases cs with
    | nil => simp [sliceLine]
    | cons c rest =>
      rw [sliceLine]
      rw [List.flatten_cons]
      rw [ih ((c :: rest).drop (m + 1)) (by
        have h2 : rest.length + 1 <= n + 1 := by simpa using h
        simp only [List.length_drop, List.length_cons]
        omega)]
      exact List.take_append_drop _ _

theorem sliceLine_join (max : Nat) (hmax : 0 < max) (cs : List Char) :
    (sliceLine max cs).flatten = cs := by
  obtain ⟨m, rfl⟩ : ∃ m, max = m + 1 := ⟨max - 1, by omega⟩
  exact sliceLine_join_aux m cs.length cs le_rfl

theorem sliceLine_length (max : Nat) :
    ∀ (n : Nat) (cs : List Char), cs.length ≤ n →
      ∀ p ∈ sliceLine max cs, p.length ≤ max := by
  intro n
  induction n with
  | zero =>
    intro cs h p hp
    have hnil : cs = [] := by
      cases cs with
      | nil => rfl
      | cons a t => simp at h
    rw [hnil] at hp
    simp [sliceLine] at hp
  | succ n ih =>
    intro cs h p hp
    cases cs with
    | nil => simp [sliceLine] at hp
    | cons c rest =>
      cases max with
      | zero => simp [sliceLine] at hp
      | succ m =>
        rw [sliceLine] at hp
        rcases List.mem_cons.mp hp with rfl | hmem
        · exact List.length_take_le (m + 1) (c :: rest)
        · exact ih ((c :: rest).drop (m + 1)) (by
            have h2 : rest.length + 1 <= n + 1 := by simpa using h
            simp only [List.length_drop, List.length_cons]
            omega) p hmem

theorem joinLen_concat (c : List String) (l : String) :
    joinLen (c ++ [l]) =
      if c = [] then l.length else joinLen c + 1 + l.length := by
  induction c with
  | nil => simp [joinLen]
  | cons a t ih =>
    cases t with
    | nil => simp [joinLen]
    | cons b t2 =>
      simp [joinLen, List.append_eq] at ih ⊢
      omega

theorem joinNL_length : ∀ c : List String, (joinNL c).length = joinLen c := by
  intro c
  induction c with
  | nil => rfl
  | cons a t ih =>
    cases t with
    | nil => rfl
    | cons b t2 =>
      have hnl : ("\n" : String).length = 1 := rfl
      simp [joinNL, joinLen, String.length_append, hnl] at ih ⊢
      omega

theorem chunkLoop_join (max : Nat) :
    ∀ (rest : List String) (chunks : List (List String)) (current : List String),
      (chunkLoop max chunks current rest).flatten =
        chunks.flatten ++ current ++
          (rest.filter (fun l => l ≠ "")).flatMap (expandLine max) := by
  intro rest
  induction rest with
  | nil =>
    intro chunks current
    rw [chunkLoop]
    by_cases hc : current = []
    · rw [if_pos hc, hc]
      simp
    · rw [if_neg hc]
      simp
  | cons line rest ih =>
    intro chunks current
    rw [chunkLoop]
    by_cases hline : line = ""
    · rw [if_pos hline, ih]
      have hfil : (line :: rest).filter (fun l => l ≠ "") =
          rest.filter (fun l => l ≠ "") := by
        rw [List.filter_cons]
        simp [hline]
      rw [hfil]
    · have hfil : (line :: rest).filter (fun l => l ≠ "") =
          line :: rest.filter (fun l => l ≠ "") := by
        rw [List.filter_cons]
        simp [hline]
      rw [if_neg hline, hfil, List.flatMap_cons]
      by_cases hw : (if current = [] then line.length
          else joinLen current + 1 + line.length) ≤ max
      · rw [if_pos hw, ih]
        have hshort : ¬ max < line.length := by
          by_cases hc : current = []
          · rw [if_pos hc] at hw
            omega
          · rw [if_neg hc] at hw
            omega
        have hexp : expandLine max line = [line] := by
          unfold expandLine
          rw [if_neg hshort]
        rw [hexp]
        simp
      · rw [if_neg hw]
        by_cases hlong : max < line.length
        · rw [if_pos hlong, ih]
          have hexp : expandLine max line =
              (sliceLine max line.toList).map String.mk := by
            unfold expandLine
            rw [if_pos hlong]
          rw [hexp]
          by_cases hc : current = []
          · rw [if_pos hc, hc]
            simp [join_map_singleton]
          · rw [if_neg hc]
            simp [join_map_singleton]
        · rw [if_neg hlong, ih]
          have hexp : expandLine max line = [line] := by
            unfold expandLine
            rw [if_neg hlong]
          have hc : ¬ current = [] := by
            intro hc
            rw [if_pos hc] at hw
            omega
          rw [if_neg hc, hexp]
          simp

theorem chunkLoop_bound (max : Nat) :
    ∀ (rest : List String) (chunks : List (List String)) (current : List String),
      (∀ c ∈ chunks, joinLen c ≤ max) → joinLen current ≤ max →
      ∀ c ∈ chunkLoop max chunks current rest, joinLen c ≤ max := by
  intro rest
  induction rest with
  | nil =>
    intro chunks current hchunks hcur c hc
    rw [chunkLoop] at hc
    by_cases he : current = []
    · rw [if_pos he] at hc
      exact hchunks c hc
    · rw [if_neg he] at hc
      rcases List.mem_append.mp hc with h1 | h2
      · exact hchunks c h1
      · rw [List.mem_singleton.mp h2]
        exact hcur
  | cons line rest ih =>
    intro chunks current hchunks hcur c hc
    rw [chunkLoop] at hc
    by_cases hline : line = ""
    · rw [if_pos hline] at hc
      exact ih chunks current hchunks hcur c hc
    · rw [if_neg hline] at hc
      by_cases hw : (if current = [] then line.length
          else joinLen current + 1 + line.length) ≤ max
      · rw [if_pos hw] at hc
        refine ih chunks (current ++ [line]) hchunks ?_ c hc
        rw [joinLen_concat]
        exact hw
      · rw [if_neg hw] at hc
        have hchunks1 : ∀ x ∈ (if current = [] then chunks
            else chunks ++ [current]), joinLen x ≤ max := by
          intro x hx
          by_cases he : current = []
          · rw [if_pos he] at hx
            exact hchunks x hx
          · rw [if_neg he] at hx
            rcases List.mem_append.mp hx with h1 | h2
            · exact hchunks x h1
            · rw [List.mem_singleton.mp h2]
              exact hcur
        by_cases hlong : max < line.length
        · rw [if_pos hlong] at hc
          refine ih _ [] ?_ (by simp [joinLen]) c hc
          intro x hx
          rcases List.mem_append.mp hx with h1 | h2
          · exact hchunks1 x h1
          · obtain ⟨p, hp, rfl⟩ := List.mem_map.mp h2
            have hplen : p.length ≤ max :=
              sliceLine_length max line.toList.length line.toList le_rfl p hp
            simpa [joinLen] using hplen
        · rw [if_neg hlong] at hc
          refine ih _ [line] hchunks1 ?_ c hc
          simp only [joinLen]
          omega

theorem splitLinesAux_sep (xs : List Char) (h : ∀ c ∈ xs, ¬ c = '\n') :
    ∀ (acc rest : List Char),
      splitLinesAux (xs ++ '\n' :: rest) acc =
        String.mk (acc.reverse ++ xs) :: splitLinesAux rest [] := by
  induction xs with
  | nil =>
    intro acc rest
    rw [List.nil_append, splitLinesAux, if_pos rfl]
    simp
  | cons c xs ih =>
    intro acc rest
    have hc : ¬ c = '\n' := h c (List.mem_cons_self _ _)
    rw [List.cons_append, splitLinesAux, if_neg hc,
      ih (fun x hx => h x (List.mem_cons_of_mem _ hx)) (c :: acc) rest]
    simp

theorem splitLinesAux_last (xs : List Char) (h : ∀ c ∈ xs, ¬ c = '\n') :
    ∀ acc : List Char, splitLinesAux xs acc = [String.mk (acc.reverse ++ xs)] := by
  induction xs with
  | nil =>
    intro acc
    rw [splitLinesAux]
    simp
  | cons c xs ih =>
    intro acc
    have hc : ¬ c = '\n' := h c (List.mem_cons_self _ _)
    rw [splitLinesAux, if_neg hc,
      ih (fun x hx => h x (List.mem_cons_of_mem _ hx)) (c :: acc)]
    simp

/-- The 1000-character lines and 2002-character input used as the
chunking counterexample. -/
def aLine : String := String.mk (List.replicate 1000 'a')

def bLine : String := String.mk (List.replicate 1000 'b')

def cexText : String := aLine ++ "\n\n" ++ bLine

theorem aLine_no_newline : ∀ c ∈ List.replicate 1000 'a', ¬ c = '\n' := by
  intro c hc
  rw [List.eq_of_mem_replicate hc]
  decide

theorem bLine_no_newline : ∀ c ∈ List.replicate 1000 'b', ¬ c = '\n' := by
  intro c hc
  rw [List.eq_of_mem_replicate hc]
  decide

theorem cexText_length : cexText.length = 2002 := by
  unfold cexText aLine bLine
  simp only [String.length_append, String.length_mk, List.length_replicate]
  decide

theorem cexText_split : jsSplitNewline cexText = [aLine, "", bLine] := by
  have htl : cexText.toList =
      List.replicate 1000 'a' ++ '\n' :: '\n' :: List.replicate 1000 'b' := by
    have h1 : cexText.toList =
        (List.replicate 1000 'a' ++ ['\n', '\n']) ++ List.replicate 1000 'b' := rfl
    rw [h1, List.append_assoc]
    rfl
  unfold jsSplitNewline
  rw [htl, splitLinesAux_sep _ aLine_no_newline]
  have h2 : ('\n' :: List.replicate 1000 'b' : List Char) =
      [] ++ '\n' :: List.replicate 1000 'b' := rfl
  rw [h2, splitLinesAux_sep [] (by intro c hc; simp at hc),
    splitLinesAux_last _ bLine_no_newline]
  rfl

theorem aLine_length : aLine.length = 1000 := by
  unfold aLine
  simp only [String.length_mk, List.length_replicate]

theorem bLine_length : bLine.length = 1000 := by
  unfold bLine
  simp only [String.length_mk, List.length_replicate]

theorem aLine_ne : ¬ aLine = "" := by
  intro h
  have := congrArg String.length h
  rw [aLine_length] at this
  simp at this

theorem bLine_ne : ¬ bLine = "" := by
  intro h
  have := congrArg String.length h
  rw [bLine_length] at this
  simp at this

theorem cexText_chunks : chunkDiscordMessage cexText = [aLine, bLine] := by
  unfold chunkDiscordMessage
  rw [if_neg (by rw [cexText_length]; omega)]
  rw [cexText_split]
  unfold chunkLines
  rw [chunkLoop, if_neg aLine_ne]
  have hc1 : (if ([] : List String) = [] then aLine.length
      else joinLen [] + 1 + aLine.length) ≤ 1900 := by
    rw [if_pos rfl, aLine_length]
    omega
  rw [if_pos hc1, List.nil_append]
  rw [chunkLoop, if_pos rfl]
  rw [chunkLoop, if_neg bLine_ne]
  have hc2 : ¬ ((if ([aLine] : List String) = [] then bLine.length
      else joinLen [aLine] + 1 + bLine.length) ≤ 1900) := by
    rw [if_neg (by simp)]
    have hj : joinLen [aLine] = aLine.length := rfl
    rw [hj, aLine_length, bLine_length]
    omega
  rw [if_neg hc2]
  have hc3 : ¬ (1900 < bLine.length) := by
    rw [bLine_length]
    omega
  rw [if_neg hc3]
  rw [if_neg (show ¬([aLine] : List String) = [] by simp), List.nil_append]
  rw [chunkLoop, if_neg (show ¬([bLine] : List String) = [] by simp)]
  rfl

/-- C6 counterexample: at the default 1900-character limit, an input whose
middle line is empty has that line dropped by the chunker (`if (!line)
continue`), so the rejoined output does not reproduce every original line. -/
theorem chunk_empty_line_cex :
    1900 < cexText.length ∧
    jsSplitNewline cexText = [aLine, "", bLine] ∧
    (chunkDiscordMessage cexText).flatMap jsSplitNewline = [aLine, bLine] ∧
    ([aLine, bLine] : List String) ≠ [aLine, "", bLine] := by
  have ha : jsSplitNewline aLine = [aLine] := by
    unfold jsSplitNewline
    have h1 : aLine.toList = List.replicate 1000 'a' := rfl
    rw [h1, splitLinesAux_last _ aLine_no_newline]
    rfl
  have hb : jsSplitNewline bLine = [bLine] := by
    unfold jsSplitNewline
    have h1 : bLine.toList = List.replicate 1000 'b' := rfl
    rw [h1, splitLinesAux_last _ bLine_no_newline]
    rfl
  refine ⟨by rw [cexText_length]; omega, cexText_split, ?_, ?_⟩
  · rw [cexText_chunks, List.flatMap_cons, List.flatMap_cons, List.flatMap_nil,
      ha, hb]
    rfl
  · intro h
    have := congrArg List.length h
    simp at this

/-- C6 (amended): a short input is returned as a single unchanged chunk; a
long input is split on newlines and greedily packed; the emitted chunks'
lines are exactly the *non-empty* source lines in order (empty lines are
dropped), with a line longer than the limit appearing as its hard-sliced
pieces, whose concatenation restores the line; and no emitted chunk
exceeds the limit. -/
theorem chunkDiscordMessage_spec (text : String) (max : Nat) (hmax : 0 < max) :
    (text.length ≤ max → chunkDiscordMessage text max = [text]) ∧
    (max < text.length →
      chunkDiscordMessage text max = (chunkLines (jsSplitNewline text) max).map joinNL) ∧
    (∀ lines : List String,
      (chunkLines lines max).flatten =
        (lines.filter (fun l => l ≠ "")).flatMap (expandLine max)) ∧
    (∀ cs : List Char, (sliceLine max cs).flatten = cs) ∧
    (∀ s ∈ chunkDiscordMessage text max, s.length ≤ max) := by
  refine ⟨?_, ?_, ?_, ?_, ?_⟩
  · intro h
    unfold chunkDiscordMessage
    rw [if_pos h]
  · intro h
    unfold chunkDiscordMessage
    rw [if_neg (by omega)]
  · intro lines
    unfold chunkLines
    rw [chunkLoop_join]
    simp
  · intro cs
    exact sliceLine_join max hmax cs
  · intro s hs
    unfold chunkDiscordMessage at hs
    by_cases h : text.length ≤ max
    · rw [if_pos h] at hs
      rw [List.mem_singleton.mp hs]
      exact h
    · rw [if_neg h] at hs
      obtain ⟨c, hc, rfl⟩ := List.mem_map.mp hs
      rw [joinNL_length]
      exact chunkLoop_bound max (jsSplitNewline text) [] []
        (by simp) (by simp [joinLen]) c hc

/-- Witness for C6 on a small input with an empty line and limit 5. -/
theorem chunkDiscordMessage_spec_witness :
    (0 : Nat) < 5 ∧
    chunkDiscordMessage "aa\n\nbb" 5 =
      (chunkLines (jsSplitNewline "aa\n\nbb") 5).map joinNL ∧
    ∀ s ∈ chunkDiscordMessage "aa\n\nbb" 5, s.length ≤ 5 :=
  ⟨by decide,
   (chunkDiscordMessage_spec "aa\n\nbb" 5 (by decide)).2.1 (by decide),
   (chunkDiscordMessage_spec "aa\n\nbb" 5 (by decide)).2.2.2.2⟩
